import Mathlib

/-!
# Verification of the Dijkstra shortest-path engine (task3)

Shallow embedding of the weighted-graph data structure and Dijkstra's
algorithm of `src/task3.py`, together with proofs of the specification's
claims about them.

Modelling choices, all taken from the source:
* Python dicts are modelled as association lists (`alookup` / `aset`),
  where `aset` updates the first matching key in place and appends a
  fresh binding at the end otherwise, exactly like a Python dict.
* `graph.edges` is a `defaultdict(list)`; reading a missing key through
  `get_neighbors` materialises an empty binding (`touch`), which is why
  the algorithm threads the graph through its state.
* `float('infinity')` distances live in `ℕ∞`; edge weights are naturals.
* The binary heap is modelled extensionally: `pqMin` extracts the
  lexicographically least `(distance, vertex)` entry, which is the
  observable behaviour of `heapq` on such tuples.
* The `while pq:` loop runs on fuel; `dijkstra` supplies `totalAdj g + 2`
  units, and we prove this is always enough, so a `none` result encodes
  a run that would diverge or raise `KeyError` (never the case for
  well-formed graphs).
* `reconstruct_path` returns `none` for a run that would raise or
  diverge, `some none` for Python's `None` ("no path") and
  `some (some p)` for a successful path `p`.
-/

namespace Task3

variable {V : Type} [LinearOrder V]

/-- Association-list lookup: Python `m[k]` read (first binding wins). -/
def alookup {α : Type} : List (V × α) → V → Option α
  | [], _ => none
  | (k, a) :: rest, x => if x = k then some a else alookup rest x

/-- Association-list write: Python `m[k] = a` (update in place, else append). -/
def aset {α : Type} : List (V × α) → V → α → List (V × α)
  | [], k, a => [(k, a)]
  | (k', a') :: rest, k, a =>
      if k = k' then (k', a) :: rest else (k', a') :: aset rest k a

/-- The `Graph` class of task3: a vertex set and a `defaultdict(list)`
adjacency mapping from vertex to `(neighbor, weight)` pairs. -/
structure Graph (V : Type) where
  vertices : List V
  edges : List (V × List (V × Nat))

/-- A freshly constructed `Graph()`. -/
def Graph.empty : Graph V := ⟨[], []⟩

/-- Python `set.add`: insert if absent. -/
def addToSet (l : List V) (v : V) : List V := if v ∈ l then l else l ++ [v]

/-- `Graph.add_vertex`. -/
def Graph.add_vertex (g : Graph V) (v : V) : Graph V :=
  { g with vertices := addToSet g.vertices v }

/-- `self.edges[k].append(e)` on a `defaultdict(list)`. -/
def appendAdj : List (V × List (V × Nat)) → V → V × Nat → List (V × List (V × Nat))
  | [], k, e => [(k, [e])]
  | (k', l) :: rest, k, e =>
      if k = k' then (k', l ++ [e]) :: rest else (k', l) :: appendAdj rest k e

/-- `Graph.add_edge`: inserts both endpoints and mirrors the edge. -/
def Graph.add_edge (g : Graph V) (u v : V) (w : Nat) : Graph V :=
  { vertices := addToSet (addToSet g.vertices u) v
    edges := appendAdj (appendAdj g.edges u (v, w)) v (u, w) }

/-- The `defaultdict` side effect of reading a missing key: a fresh empty
binding is materialised. -/
def touch : List (V × List (V × Nat)) → V → List (V × List (V × Nat))
  | [], k => [(k, [])]
  | (k', l) :: rest, k =>
      if k = k' then (k', l) :: rest else (k', l) :: touch rest k

/-- `Graph.get_neighbors`: the adjacency list of `v` (empty if absent)
together with the graph after the `defaultdict` read. -/
def Graph.get_neighbors (g : Graph V) (v : V) : List (V × Nat) × Graph V :=
  ((alookup g.edges v).getD [], { g with edges := touch g.edges v })

/-- Pure content view of the adjacency of `v` (missing key reads as `[]`). -/
def neighborsList (g : Graph V) (v : V) : List (V × Nat) :=
  (alookup g.edges v).getD []

/-- The running state of `dijkstra`: the `distances` and `previous` dicts,
the priority queue, the visited set (as an insertion-ordered list) and the
graph (threaded because `get_neighbors` can mutate the `defaultdict`). -/
structure DState (V : Type) where
  dist : List (V × ℕ∞)
  prev : List (V × Option V)
  pq : List (Nat × V)
  visited : List V
  graph : Graph V

/-- Lexicographic order on heap entries, as Python compares
`(distance, vertex)` tuples. -/
def entryLe (a b : Nat × V) : Prop :=
  a.1 < b.1 ∨ (a.1 = b.1 ∧ a.2 ≤ b.2)

instance entryLe.dec (a b : Nat × V) : Decidable (entryLe a b) := by
  unfold entryLe; infer_instance

/-- The least entry of the queue under the tuple order: the entry that
`heapq.heappop` returns. -/
def pqMin : List (Nat × V) → Option (Nat × V)
  | [] => none
  | e :: rest =>
      some (match pqMin rest with
            | none => e
            | some m => if entryLe e m then e else m)

/-- The inner `for neighbor, weight in ...` relaxation loop of `dijkstra`.
`d0` is the popped `current_distance`, `u` the popped `current_vertex`.
Returns `none` on a `KeyError` (`distances[neighbor]` missing). -/
def relaxAll : List (V × Nat) → Nat → V → DState V → Option (DState V)
  | [], _, _, st => some st
  | (n, w) :: rest, d0, u, st =>
      if n ∈ st.visited then relaxAll rest d0 u st
      else
        match alookup st.dist n with
        | none => none
        | some dn =>
            if ((d0 + w : Nat) : ℕ∞) < dn then
              relaxAll rest d0 u
                { st with
                  dist := aset st.dist n ((d0 + w : Nat) : ℕ∞)
                  prev := aset st.prev n (some u)
                  pq := st.pq ++ [(d0 + w, n)] }
            else relaxAll rest d0 u st

/-- The `while pq:` loop of `dijkstra`, on fuel.  Each iteration pops the
least entry, skips it if already visited, and otherwise marks it visited
and relaxes its neighbors. -/
def dloop : Nat → DState V → Option (DState V)
  | fuel, st =>
      match pqMin st.pq with
      | none => some st
      | some e =>
          match fuel with
          | 0 => none
          | fuel + 1 =>
              if e.2 ∈ st.visited then dloop fuel { st with pq := st.pq.erase e }
              else
                match relaxAll (st.graph.get_neighbors e.2).1 e.1 e.2
                    { st with
                      pq := st.pq.erase e
                      visited := st.visited ++ [e.2]
                      graph := (st.graph.get_neighbors e.2).2 } with
                | none => none
                | some st2 => dloop fuel st2

/-- Total number of adjacency entries (twice the number of edges). -/
def totalAdj (g : Graph V) : Nat := (g.edges.map (fun p => p.2.length)).sum

/-- `distances = {v: inf for v in graph.vertices}; distances[start] = 0`. -/
def initDist (g : Graph V) (s : V) : List (V × ℕ∞) :=
  aset (g.vertices.map (fun v => (v, (⊤ : ℕ∞)))) s 0

/-- `previous = {v: None for v in graph.vertices}`. -/
def initPrev (g : Graph V) : List (V × Option V) :=
  g.vertices.map (fun v => (v, (none : Option V)))

/-- `dijkstra(graph, start_vertex)`.  The returned state carries the
`distances` dict (`.dist`), the `previous` dict (`.prev`) and the graph
after the call (`.graph`).  The fuel `totalAdj g + 2` is proved sufficient
below, so `none` never occurs on well-formed graphs. -/
def dijkstra (g : Graph V) (s : V) : Option (DState V) :=
  dloop (totalAdj g + 2) ⟨initDist g s, initPrev g, [(0, s)], [], g⟩

/-- The backward walk of `reconstruct_path` (`while current is not None`),
on fuel.  Returns `none` on `KeyError` or fuel exhaustion (divergence). -/
def walkPrev (prev : List (V × Option V)) : Nat → V → Option (List V)
  | 0, _ => none
  | fuel + 1, c =>
      match alookup prev c with
      | none => none
      | some none => some [c]
      | some (some p) => (walkPrev prev fuel p).map (fun l => c :: l)

/-- `reconstruct_path(previous, start, end)`: outer `none` models an
exception or divergence, `some none` models Python's `None` ("no path"),
`some (some p)` a successful path. -/
def reconstruct_path (prev : List (V × Option V)) (start tgt : V) :
    Option (Option (List V)) :=
  match walkPrev prev (prev.length + 1) tgt with
  | none => none
  | some revPath =>
      let path := revPath.reverse
      if path.head? = some start then some (some path) else some none

/-- `create_sample_graph()` of task3, with the characters of the Python
string labels as vertices. -/
def create_sample_graph : Graph Char :=
  [('A', 'B', 4), ('A', 'C', 2), ('B', 'C', 1), ('B', 'D', 5),
   ('C', 'D', 8), ('C', 'E', 10), ('D', 'E', 2), ('D', 'F', 6),
   ('E', 'F', 3)].foldl
    (fun g e => g.add_edge e.1 e.2.1 e.2.2) Graph.empty

/-- Well-formed graph: every adjacency key and every neighbor is a member
of the vertex set.  Holds for every graph built through `add_vertex` /
`add_edge` (proved below). -/
def WF (g : Graph V) : Prop :=
  ∀ p ∈ g.edges, p.1 ∈ g.vertices ∧ ∀ e ∈ p.2, e.1 ∈ g.vertices

instance (g : Graph V) : Decidable (WF g) := by unfold WF; infer_instance

/-- A walk in the graph from `s` ending at a vertex, with its total weight:
the "paths" the specification's shortest-distance statements range over. -/
inductive Walk (g : Graph V) (s : V) : V → Nat → Prop
  | nil : Walk g s s 0
  | snoc {v x : V} {c w : Nat} :
      Walk g s v c → (x, w) ∈ neighborsList g v → Walk g s x (c + w)

/-- `d` is the minimum total edge weight over all walks from `s` to `v`:
it is a lower bound on every walk weight, and it is attained by a walk
unless it is `⊤`, in which case no walk exists at all. -/
def IsShortestDistance (g : Graph V) (s v : V) (d : ℕ∞) : Prop :=
  (∀ n : Nat, Walk g s v n → d ≤ (n : ℕ∞)) ∧
  (d = ⊤ → ∀ n : Nat, ¬ Walk g s v n) ∧
  (d ≠ ⊤ → ∃ n : Nat, d = (n : ℕ∞) ∧ Walk g s v n)

/-- Distance read with the convention that a missing key reads as `⊤`
(only used after a key check). -/
def dOf (m : List (V × ℕ∞)) (v : V) : ℕ∞ := (alookup m v).getD ⊤

theorem alookup_aset_self {α : Type} (m : List (V × α)) (k : V) (a : α) :
    alookup (aset m k a) k = some a := by
  induction m with
  | nil => simp [aset, alookup]
  | cons p rest ih =>
    obtain ⟨k', a'⟩ := p
    by_cases h : k = k'
    · subst h
      simp [aset, alookup]
    · simp only [aset, if_neg h, alookup, ih]

theorem alookup_aset_ne {α : Type} (m : List (V × α)) (k x : V) (a : α)
    (h : x ≠ k) : alookup (aset m k a) x = alookup m x := by
  induction m with
  | nil => simp [aset, alookup, h]
  | cons p rest ih =>
    obtain ⟨k', a'⟩ := p
    by_cases hk : k = k'
    · subst hk
      simp [aset, alookup, h]
    · simp only [aset, if_neg hk, alookup]
      by_cases hx : x = k'
      · simp [hx]
      · simp only [if_neg hx, ih]

theorem isSome_alookup_aset {α : Type} (m : List (V × α)) (k x : V) (a : α) :
    (alookup (aset m k a) x).isSome = true ↔
      ((alookup m x).isSome = true ∨ x = k) := by
  by_cases h : x = k
  · subst h
    simp [alookup_aset_self]
  · rw [alookup_aset_ne m k x a h]
    simp [h]

theorem entryLe_refl (a : Nat × V) : entryLe a a := Or.inr ⟨rfl, le_refl _⟩

theorem entryLe_trans {a b c : Nat × V} (hab : entryLe a b) (hbc : entryLe b c) :
    entryLe a c := by
  rcases hab with h1 | ⟨h1, h1'⟩ <;> rcases hbc with h2 | ⟨h2, h2'⟩
  · exact Or.inl (h1.trans h2)
  · exact Or.inl (h2 ▸ h1)
  · exact Or.inl (h1 ▸ h2)
  · exact Or.inr ⟨h1.trans h2, h1'.trans h2'⟩

theorem entryLe_total (a b : Nat × V) : entryLe a b ∨ entryLe b a := by
  rcases lt_trichotomy a.1 b.1 with h | h | h
  · exact Or.inl (Or.inl h)
  · rcases le_total a.2 b.2 with h2 | h2
    · exact Or.inl (Or.inr ⟨h, h2⟩)
    · exact Or.inr (Or.inr ⟨h.symm, h2⟩)
  · exact Or.inr (Or.inl h)

theorem pqMin_eq_none {l : List (Nat × V)} : pqMin l = none ↔ l = [] := by
  cases l <;> simp [pqMin]

theorem pqMin_spec {l : List (Nat × V)} {e : Nat × V} (h : pqMin l = some e) :
    e ∈ l ∧ ∀ x ∈ l, entryLe e x := by
  induction l generalizing e with
  | nil => simp [pqMin] at h
  | cons e0 rest ih =>
    rw [pqMin] at h
    cases hrest : pqMin rest with
    | none =>
      rw [hrest] at h
      have hnil : rest = [] := pqMin_eq_none.mp hrest
      subst hnil
      simp only [Option.some.injEq] at h
      subst h
      refine ⟨List.mem_singleton.mpr rfl, ?_⟩
      intro x hx
      rw [List.mem_singleton] at hx
      subst hx
      exact entryLe_refl _
    | some m =>
      rw [hrest] at h
      simp only [Option.some.injEq] at h
      obtain ⟨hm, hmle⟩ := ih hrest
      by_cases hle : entryLe e0 m
      · rw [if_pos hle] at h
        subst h
        refine ⟨List.mem_cons_self _ _, ?_⟩
        intro x hx
        rcases List.mem_cons.mp hx with hx | hx
        · subst hx
          exact entryLe_refl _
        · exact entryLe_trans hle (hmle x hx)
      · rw [if_neg hle] at h
        subst h
        refine ⟨List.mem_cons_of_mem _ hm, ?_⟩
        intro x hx
        rcases List.mem_cons.mp hx with hx | hx
        · subst hx
          exact (entryLe_total _ _).resolve_left hle
        · exact hmle x hx

theorem alookup_touch_getD (es : List (V × List (V × Nat))) (k x : V) :
    (alookup (touch es k) x).getD [] = (alookup es x).getD [] := by
  induction es with
  | nil =>
    by_cases h : x = k <;> simp [touch, alookup, h]
  | cons p rest ih =>
    obtain ⟨k', l⟩ := p
    by_cases hk : k = k'
    · simp [touch, hk]
    · simp only [touch, if_neg hk, alookup]
      by_cases hx : x = k'
      · simp [hx]
      · simp only [if_neg hx, ih]

theorem neighborsList_get_neighbors (g : Graph V) (v x : V) :
    neighborsList (g.get_neighbors v).2 x = neighborsList g x :=
  alookup_touch_getD g.edges v x

theorem vertices_get_neighbors (g : Graph V) (v : V) :
    (g.get_neighbors v).2.vertices = g.vertices := rfl

theorem fst_get_neighbors (g : Graph V) (v : V) :
    (g.get_neighbors v).1 = neighborsList g v := rfl


/-- The state entering the relaxation loop when `e` is popped and freshly
visited: the entry is removed from the queue, the vertex appended to the
visited set, and the graph carries the `defaultdict` read. -/
def visitState (st : DState V) (e : Nat × V) : DState V :=
  { st with
    pq := st.pq.erase e
    visited := st.visited ++ [e.2]
    graph := (st.graph.get_neighbors e.2).2 }

theorem dloop_none (fuel : Nat) (st : DState V) (h : pqMin st.pq = none) :
    dloop fuel st = some st := by
  cases fuel <;> rw [dloop, h]

theorem dloop_zero (st : DState V) (e : Nat × V) (h : pqMin st.pq = some e) :
    dloop 0 st = none := by
  rw [dloop, h]

theorem dloop_skip (fuel : Nat) (st : DState V) (e : Nat × V)
    (h : pqMin st.pq = some e) (hv : e.2 ∈ st.visited) :
    dloop (fuel + 1) st = dloop fuel { st with pq := st.pq.erase e } := by
  rw [dloop, h]
  exact if_pos hv

theorem dloop_visit (fuel : Nat) (st : DState V) (e : Nat × V)
    (h : pqMin st.pq = some e) (hv : e.2 ∉ st.visited) :
    dloop (fuel + 1) st =
      match relaxAll (st.graph.get_neighbors e.2).1 e.1 e.2 (visitState st e) with
      | none => none
      | some st2 => dloop fuel st2 := by
  rw [dloop, h]
  exact if_neg hv

/-- The state produced by one successful relaxation of neighbor `n` with
weight `w` from popped entry `(d0, u)`. -/
def relaxState (st : DState V) (n : V) (w d0 : Nat) (u : V) : DState V :=
  { st with
    dist := aset st.dist n ((d0 + w : Nat) : ℕ∞)
    prev := aset st.prev n (some u)
    pq := st.pq ++ [(d0 + w, n)] }

theorem relaxAll_skip {n : V} {w : Nat} {rest : List (V × Nat)} {d0 : Nat} {u : V}
    {st : DState V} (hn : n ∈ st.visited) :
    relaxAll ((n, w) :: rest) d0 u st = relaxAll rest d0 u st := by
  rw [relaxAll]
  exact if_pos hn

theorem relaxAll_keyerr {n : V} {w : Nat} {rest : List (V × Nat)} {d0 : Nat} {u : V}
    {st : DState V} (hn : n ∉ st.visited) (hl : alookup st.dist n = none) :
    relaxAll ((n, w) :: rest) d0 u st = none := by
  rw [relaxAll, if_neg hn, hl]

theorem relaxAll_update {n : V} {w : Nat} {rest : List (V × Nat)} {d0 : Nat} {u : V}
    {st : DState V} {dn : ℕ∞} (hn : n ∉ st.visited) (hl : alookup st.dist n = some dn)
    (himp : ((d0 + w : Nat) : ℕ∞) < dn) :
    relaxAll ((n, w) :: rest) d0 u st = relaxAll rest d0 u (relaxState st n w d0 u) := by
  rw [relaxAll, if_neg hn, hl]
  exact if_pos himp

theorem relaxAll_noupdate {n : V} {w : Nat} {rest : List (V × Nat)} {d0 : Nat} {u : V}
    {st : DState V} {dn : ℕ∞} (hn : n ∉ st.visited) (hl : alookup st.dist n = some dn)
    (himp : ¬ ((d0 + w : Nat) : ℕ∞) < dn) :
    relaxAll ((n, w) :: rest) d0 u st = relaxAll rest d0 u st := by
  rw [relaxAll, if_neg hn, hl]
  exact if_neg himp

theorem relaxAll_frame {d0 : Nat} {u : V} :
    ∀ {rem : List (V × Nat)} {st st' : DState V},
      relaxAll rem d0 u st = some st' →
      st'.visited = st.visited ∧ st'.graph = st.graph ∧
        st'.pq.length ≤ st.pq.length + rem.length ∧
        (∀ x ∈ st.visited, alookup st'.dist x = alookup st.dist x ∧
          alookup st'.prev x = alookup st.prev x) := by
  intro rem
  induction rem with
  | nil =>
    intro st st' h
    simp only [relaxAll, Option.some.injEq] at h
    subst h
    exact ⟨rfl, rfl, Nat.le_add_right _ _, fun x _ => ⟨rfl, rfl⟩⟩
  | cons p rest ih =>
    intro st st' h
    obtain ⟨n, w⟩ := p
    by_cases hn : n ∈ st.visited
    · rw [relaxAll_skip hn] at h
      obtain ⟨h1, h2, h3, h5⟩ := ih h
      refine ⟨h1, h2, ?_, h5⟩
      simp only [List.length_cons]
      omega
    · cases hl : alookup st.dist n with
      | none =>
        rw [relaxAll_keyerr hn hl] at h
        cases h
      | some dn =>
        by_cases himp : ((d0 + w : Nat) : ℕ∞) < dn
        · rw [relaxAll_update hn hl himp] at h
          obtain ⟨h1, h2, h3, h5⟩ := ih h
          refine ⟨h1, h2, ?_, ?_⟩
          · simp only [relaxState, List.length_append, List.length_cons,
              List.length_nil] at h3 ⊢
            omega
          · intro x hx
            have hxn : x ≠ n := fun hh => hn (hh ▸ hx)
            have h6 := h5 x hx
            simp only [relaxState] at h6
            rw [alookup_aset_ne _ _ _ _ hxn, alookup_aset_ne _ _ _ _ hxn] at h6
            exact h6
        · rw [relaxAll_noupdate hn hl himp] at h
          obtain ⟨h1, h2, h3, h5⟩ := ih h
          refine ⟨h1, h2, ?_, h5⟩
          simp only [List.length_cons]
          omega

theorem dloop_frozen :
    ∀ (fuel : Nat) {st st' : DState V}, dloop fuel st = some st' →
      (∀ x ∈ st.visited, alookup st'.dist x = alookup st.dist x ∧
        st'.visited.count x = st.visited.count x) ∧
      st'.graph.vertices = st.graph.vertices ∧
      (∀ y, neighborsList st'.graph y = neighborsList st.graph y) := by
  intro fuel
  induction fuel with
  | zero =>
    intro st st' h
    cases hmin : pqMin st.pq with
    | none =>
      rw [dloop_none 0 st hmin] at h
      cases h
      exact ⟨fun x _ => ⟨rfl, rfl⟩, rfl, fun _ => rfl⟩
    | some e =>
      rw [dloop_zero st e hmin] at h
      cases h
  | succ fuel ih =>
    intro st st' h
    cases hmin : pqMin st.pq with
    | none =>
      rw [dloop_none _ st hmin] at h
      cases h
      exact ⟨fun x _ => ⟨rfl, rfl⟩, rfl, fun _ => rfl⟩
    | some e =>
      by_cases hv : e.2 ∈ st.visited
      · rw [dloop_skip fuel st e hmin hv] at h
        have hres := ih h
        exact hres
      · rw [dloop_visit fuel st e hmin hv] at h
        cases hrel : relaxAll (st.graph.get_neighbors e.2).1 e.1 e.2 (visitState st e) with
        | none =>
          rw [hrel] at h
          cases h
        | some st2 =>
          rw [hrel] at h
          obtain ⟨hfr, hgv, hgn⟩ := ih h
          obtain ⟨hv2, hg2, _, hd2⟩ := relaxAll_frame hrel
          refine ⟨?_, ?_, ?_⟩
          · intro x hx
            have hxm : x ∈ (visitState st e).visited := List.mem_append_left _ hx
            obtain ⟨hda, hca⟩ := hfr x (hv2 ▸ hxm)
            obtain ⟨hdb, _⟩ := hd2 x hxm
            have hxe : x ≠ e.2 := fun hh => hv (hh ▸ hx)
            refine ⟨hda.trans hdb, ?_⟩
            rw [hca, hv2]
            show (st.visited ++ [e.2]).count x = st.visited.count x
            rw [List.count_append]
            have hc0 : [e.2].count x = 0 :=
              List.count_eq_zero.mpr (by
                intro hc
                rw [List.mem_singleton] at hc
                exact hxe hc)
            omega
          · rw [hgv, hg2]
            rfl
          · intro y
            rw [hgn y, hg2]
            exact neighborsList_get_neighbors st.graph e.2 y

theorem alookup_mem {α : Type} {m : List (V × α)} {x : V} {a : α}
    (h : alookup m x = some a) : (x, a) ∈ m := by
  induction m with
  | nil => cases h
  | cons p rest ih =>
    obtain ⟨k, a'⟩ := p
    rw [alookup] at h
    by_cases hx : x = k
    · rw [if_pos hx] at h
      cases h
      subst hx
      exact List.mem_cons_self _ _
    · rw [if_neg hx] at h
      exact List.mem_cons_of_mem _ (ih h)

theorem wf_neighbor {g : Graph V} (hwf : WF g) {u : V} {e : V × Nat}
    (he : e ∈ neighborsList g u) : e.1 ∈ g.vertices := by
  unfold neighborsList at he
  cases hl : alookup g.edges u with
  | none => rw [hl] at he; cases he
  | some l =>
    rw [hl] at he
    exact (hwf (u, l) (alookup_mem hl)).2 e he

theorem dOf_aset_self (m : List (V × ℕ∞)) (k : V) (a : ℕ∞) :
    dOf (aset m k a) k = a := by
  unfold dOf
  rw [alookup_aset_self]
  rfl

theorem dOf_aset_ne (m : List (V × ℕ∞)) (k x : V) (a : ℕ∞) (h : x ≠ k) :
    dOf (aset m k a) x = dOf m x := by
  unfold dOf
  rw [alookup_aset_ne _ _ _ _ h]

theorem dOf_eq_of_alookup {m : List (V × ℕ∞)} {v : V} {dn : ℕ∞}
    (h : alookup m v = some dn) : dOf m v = dn := by
  unfold dOf
  rw [h]
  rfl

/-- Invariant fields maintained by the main loop, except the relaxation
closure, which is threaded separately through the inner loop.  `g` is the
graph as the caller built it, `s` the start vertex. -/
structure Pre (g : Graph V) (s : V) (st : DState V) : Prop where
  hver : st.graph.vertices = g.vertices
  hnb : ∀ x, neighborsList st.graph x = neighborsList g x
  hdk : ∀ v, (alookup st.dist v).isSome = true ↔ (v ∈ g.vertices ∨ v = s)
  hpk : ∀ v, (alookup st.prev v).isSome = true ↔ v ∈ g.vertices
  hub : ∀ v, dOf st.dist v ≠ ⊤ → ∃ n : Nat, dOf st.dist v = (n : ℕ∞) ∧ Walk g s v n
  hpqw : ∀ e ∈ st.pq, Walk g s e.2 e.1
  hpqlb : ∀ e ∈ st.pq, dOf st.dist e.2 ≤ (e.1 : ℕ∞)
  hcomp : ∀ v, v ∉ st.visited → dOf st.dist v ≠ ⊤ →
    ∃ c : Nat, (c, v) ∈ st.pq ∧ (c : ℕ∞) = dOf st.dist v
  hcut : ∀ x ∈ st.visited, ∀ e ∈ st.pq, dOf st.dist x ≤ (e.1 : ℕ∞)
  hs0 : dOf st.dist s = 0
  hpd : ∀ v pv, alookup st.prev v = some (some pv) → dOf st.dist v ≠ ⊤
  hps : ∀ o, alookup st.prev s = some o → o = none
  hnd : st.visited.Nodup

/-- Relaxation closure: every edge out of a visited vertex has been relaxed,
except (while the inner loop runs) the not-yet-processed edges `rem` of the
vertex `u` currently being visited. -/
def Closed (g : Graph V) (st : DState V) (u : V) (rem : List (V × Nat)) : Prop :=
  ∀ x ∈ st.visited, ∀ e ∈ neighborsList g x, (x = u → e ∉ rem) →
    dOf st.dist e.1 ≤ dOf st.dist x + (e.2 : ℕ∞)

/-- The full loop invariant of `dijkstra`. -/
def DInv (g : Graph V) (s : V) (st : DState V) : Prop :=
  Pre g s st ∧ ∀ x ∈ st.visited, ∀ e ∈ neighborsList g x,
    dOf st.dist e.1 ≤ dOf st.dist x + (e.2 : ℕ∞)

theorem DInv_of_closed {g : Graph V} {s : V} {st : DState V} {u : V}
    (hpre : Pre g s st) (hcl : Closed g st u []) : DInv g s st :=
  ⟨hpre, fun x hx e he => hcl x hx e he (fun _ => List.not_mem_nil e)⟩

theorem closed_of_DInv {g : Graph V} {s : V} {st : DState V} (u : V)
    {rem : List (V × Nat)} (hinv : DInv g s st) : Closed g st u rem :=
  fun x hx e he _ => hinv.2 x hx e he

theorem dOf_relax_le {st : DState V} {n : V} {w d0 : Nat} {u : V} {dn : ℕ∞}
    (hl : alookup st.dist n = some dn) (himp : ((d0 + w : Nat) : ℕ∞) < dn) (y : V) :
    dOf (relaxState st n w d0 u).dist y ≤ dOf st.dist y := by
  by_cases hy : y = n
  · subst hy
    simp only [relaxState]
    rw [dOf_aset_self, dOf_eq_of_alookup hl]
    exact le_of_lt himp
  · simp only [relaxState]
    rw [dOf_aset_ne _ _ _ _ hy]

theorem relaxAll_inv {g : Graph V} {s u : V} {d0 : Nat}
    (hwf : WF g) (hwalk : Walk g s u d0) :
    ∀ (rem : List (V × Nat)) (st : DState V),
      Pre g s st →
      Closed g st u rem →
      (∀ e ∈ rem, e ∈ neighborsList g u) →
      u ∈ st.visited →
      dOf st.dist u = (d0 : ℕ∞) →
      (∀ x ∈ st.visited, dOf st.dist x ≤ (d0 : ℕ∞)) →
      ∃ st', relaxAll rem d0 u st = some st' ∧
        Pre g s st' ∧ Closed g st' u [] ∧
        st'.visited = st.visited ∧ st'.graph = st.graph ∧
        st'.pq.length ≤ st.pq.length + rem.length := by
  intro rem
  induction rem with
  | nil =>
    intro st hpre hcl hsub hu hdu hvb
    exact ⟨st, rfl, hpre, hcl, rfl, rfl, Nat.le_add_right _ _⟩
  | cons p rest ih =>
    intro st hpre hcl hsub hu hdu hvb
    obtain ⟨n, w⟩ := p
    have hnmem : (n, w) ∈ neighborsList g u := hsub _ (List.mem_cons_self _ _)
    have hun : u ≠ n ∨ True := Or.inr trivial
    by_cases hn : n ∈ st.visited
    · -- neighbor already visited: skipped by the loop
      have hcl1 : Closed g st u rest := by
        intro x hx e he hg
        by_cases hxu : x = u
        · subst hxu
          have hg' : e ∉ rest := hg rfl
          by_cases hen : e = (n, w)
          · subst hen
            rw [hdu]
            exact le_trans (hvb n hn) (self_le_add_right _ _)
          · refine hcl x hx e he (fun _ hc => ?_)
            rcases List.mem_cons.mp hc with hc | hc
            · exact hen hc
            · exact hg' hc
        · exact hcl x hx e he (fun hh => absurd hh hxu)
      obtain ⟨st', hrun, hpre', hcl', hv', hg', hlen'⟩ :=
        ih st hpre hcl1 (fun e he => hsub e (List.mem_cons_of_mem _ he)) hu hdu hvb
      refine ⟨st', ?_, hpre', hcl', hv', hg', ?_⟩
      · rw [relaxAll_skip hn]
        exact hrun
      · simp only [List.length_cons]
        omega
    · -- neighbor not visited: look up its distance
      have hnv : n ∈ g.vertices := wf_neighbor hwf hnmem
      have hkey : (alookup st.dist n).isSome = true := (hpre.hdk n).mpr (Or.inl hnv)
      obtain ⟨dn, hl⟩ := Option.isSome_iff_exists.mp hkey
      have hdofn : dOf st.dist n = dn := dOf_eq_of_alookup hl
      by_cases himp : ((d0 + w : Nat) : ℕ∞) < dn
      · -- successful relaxation
        have hns : n ≠ s := by
          intro hh
          subst hh
          rw [hdofn.symm.trans hpre.hs0] at himp
          exact not_lt_of_le (zero_le _) himp
        have husn : u ≠ n := fun hh => hn (hh ▸ hu)
        have hrelle := @dOf_relax_le V _ st n w d0 u dn hl himp
        have hdist1 : (relaxState st n w d0 u).dist = aset st.dist n ((d0 + w : Nat) : ℕ∞) := rfl
        have hprev1 : (relaxState st n w d0 u).prev = aset st.prev n (some u) := rfl
        have hvis1 : (relaxState st n w d0 u).visited = st.visited := rfl
        have hg1 : (relaxState st n w d0 u).graph = st.graph := rfl
        have hpq1 : (relaxState st n w d0 u).pq = st.pq ++ [(d0 + w, n)] := rfl
        have hdun : dOf (relaxState st n w d0 u).dist u = (d0 : ℕ∞) := by
          rw [hdist1, dOf_aset_ne _ _ _ _ husn]
          exact hdu
        have hpre1 : Pre g s (relaxState st n w d0 u) := by
          refine ⟨?_, ?_, ?_, ?_, ?_, ?_, ?_, ?_, ?_, ?_, ?_, ?_, ?_⟩
          · rw [hg1]; exact hpre.hver
          · rw [hg1]; exact hpre.hnb
          · intro v
            rw [hdist1, isSome_alookup_aset]
            constructor
            · rintro (hold | rfl)
              · exact (hpre.hdk v).mp hold
              · exact Or.inl hnv
            · intro hvs
              exact Or.inl ((hpre.hdk v).mpr hvs)
          · intro v
            rw [hprev1, isSome_alookup_aset]
            constructor
            · rintro (hold | rfl)
              · exact (hpre.hpk v).mp hold
              · exact hnv
            · intro hvs
              exact Or.inl ((hpre.hpk v).mpr hvs)
          · intro v hne
            by_cases hv : v = n
            · subst hv
              refine ⟨d0 + w, ?_, Walk.snoc hwalk hnmem⟩
              rw [hdist1, dOf_aset_self]
            · rw [hdist1, dOf_aset_ne _ _ _ _ hv] at hne ⊢
              exact hpre.hub v hne
          · intro e he
            rw [hpq1] at he
            rcases List.mem_append.mp he with he | he
            · exact hpre.hpqw e he
            · rw [List.mem_singleton] at he
              subst he
              exact Walk.snoc hwalk hnmem
          · intro e he
            rw [hpq1] at he
            rcases List.mem_append.mp he with he | he
            · exact le_trans (hrelle e.2) (hpre.hpqlb e he)
            · rw [List.mem_singleton] at he
              subst he
              rw [hdist1, dOf_aset_self]
          · intro v hv hne
            rw [hvis1] at hv
            by_cases hvn : v = n
            · subst hvn
              refine ⟨d0 + w, ?_, ?_⟩
              · rw [hpq1]
                exact List.mem_append_right _ (List.mem_singleton.mpr rfl)
              · rw [hdist1, dOf_aset_self]
            · rw [hdist1, dOf_aset_ne _ _ _ _ hvn] at hne ⊢
              obtain ⟨c, hc, hceq⟩ := hpre.hcomp v hv hne
              exact ⟨c, by rw [hpq1]; exact List.mem_append_left _ hc, hceq⟩
          · intro x hx e he
            rw [hvis1] at hx
            have hxn : x ≠ n := fun hh => hn (hh ▸ hx)
            rw [hdist1, dOf_aset_ne _ _ _ _ hxn]
            rw [hpq1] at he
            rcases List.mem_append.mp he with he | he
            · exact hpre.hcut x hx e he
            · rw [List.mem_singleton] at he
              subst he
              exact le_trans (hvb x hx) (Nat.cast_le.mpr (Nat.le_add_right d0 w))
          · have hsn : s ≠ n := fun hh => hns hh.symm
            rw [hdist1, dOf_aset_ne _ _ _ _ hsn]
            exact hpre.hs0
          · intro v pv hpv
            by_cases hvn : v = n
            · subst hvn
              rw [hdist1, dOf_aset_self]
              exact ENat.coe_ne_top _
            · rw [hprev1, alookup_aset_ne _ _ _ _ hvn] at hpv
              rw [hdist1, dOf_aset_ne _ _ _ _ hvn]
              exact hpre.hpd v pv hpv
          · intro o ho
            have hsn : s ≠ n := fun hh => hns hh.symm
            rw [hprev1, alookup_aset_ne _ _ _ _ hsn] at ho
            exact hpre.hps o ho
          · rw [hvis1]
            exact hpre.hnd
        have hcl1 : Closed g (relaxState st n w d0 u) u rest := by
          intro x hx e he hg
          rw [hvis1] at hx
          have hxn : x ≠ n := fun hh => hn (hh ▸ hx)
          by_cases hxu : x = u
          · subst hxu
            have hg' : e ∉ rest := hg rfl
            by_cases hen : e = (n, w)
            · subst hen
              rw [hdist1, dOf_aset_self, dOf_aset_ne _ _ _ _ hxn, hdu, Nat.cast_add]
            · have hold := hcl x hx e he (fun _ hc => by
                rcases List.mem_cons.mp hc with hc | hc
                · exact hen hc
                · exact hg' hc)
              refine le_trans (hrelle e.1) (le_trans hold ?_)
              rw [hdist1, dOf_aset_ne _ _ _ _ hxn, hdu]
          · have hold := hcl x hx e he (fun hh => absurd hh hxu)
            refine le_trans (hrelle e.1) (le_trans hold ?_)
            rw [hdist1, dOf_aset_ne _ _ _ _ hxn]
        have hvb1 : ∀ x ∈ (relaxState st n w d0 u).visited,
            dOf (relaxState st n w d0 u).dist x ≤ (d0 : ℕ∞) := by
          intro x hx
          rw [hvis1] at hx
          have hxn : x ≠ n := fun hh => hn (hh ▸ hx)
          rw [hdist1, dOf_aset_ne _ _ _ _ hxn]
          exact hvb x hx
        obtain ⟨st', hrun, hpre', hcl', hv', hg', hlen'⟩ :=
          ih (relaxState st n w d0 u) hpre1 hcl1
            (fun e he => hsub e (List.mem_cons_of_mem _ he)) hu hdun hvb1
        refine ⟨st', ?_, hpre', hcl', ?_, ?_, ?_⟩
        · rw [relaxAll_update hn hl himp]
          exact hrun
        · rw [hv', hvis1]
        · rw [hg', hg1]
        · rw [hpq1] at hlen'
          simp only [List.length_append, List.length_cons, List.length_nil] at hlen' ⊢
          omega
      · -- no improvement: nothing changes
        have hcl1 : Closed g st u rest := by
          intro x hx e he hg
          by_cases hxu : x = u
          · subst hxu
            have hg' : e ∉ rest := hg rfl
            by_cases hen : e = (n, w)
            · subst hen
              rw [hdofn, hdu, ← Nat.cast_add]
              exact not_lt.mp himp
            · refine hcl x hx e he (fun _ hc => ?_)
              rcases List.mem_cons.mp hc with hc | hc
              · exact hen hc
              · exact hg' hc
          · exact hcl x hx e he (fun hh => absurd hh hxu)
        obtain ⟨st', hrun, hpre', hcl', hv', hg', hlen'⟩ :=
          ih st hpre hcl1 (fun e he => hsub e (List.mem_cons_of_mem _ he)) hu hdu hvb
        refine ⟨st', ?_, hpre', hcl', hv', hg', ?_⟩
        · rw [relaxAll_noupdate hn hl himp]
          exact hrun
        · simp only [List.length_cons]
          omega

/-- Potential of the adjacency structure: total length of the adjacency
lists of not-yet-visited keys.  Bounds the number of future pushes. -/
def adjPot : List (V × List (V × Nat)) → List V → Nat
  | [], _ => 0
  | p :: rest, vis => (if p.1 ∈ vis then 0 else p.2.length) + adjPot rest vis

/-- Termination potential: strictly decreases at every loop iteration. -/
def Phi (st : DState V) : Nat := st.pq.length + adjPot st.graph.edges st.visited

theorem adjPot_le (es : List (V × List (V × Nat))) (vis : List V) :
    adjPot es vis ≤ (es.map (fun p => p.2.length)).sum := by
  induction es with
  | nil => exact le_refl _
  | cons p rest ih =>
    rw [adjPot, List.map_cons, List.sum_cons]
    have : (if p.1 ∈ vis then 0 else p.2.length) ≤ p.2.length := by
      split
      · exact Nat.zero_le _
      · exact le_refl _
    omega

theorem adjPot_mono (es : List (V × List (V × Nat))) (vis vis' : List V)
    (h : ∀ x, x ∈ vis → x ∈ vis') : adjPot es vis' ≤ adjPot es vis := by
  induction es with
  | nil => exact le_refl _
  | cons p rest ih =>
    rw [adjPot, adjPot]
    have hterm : (if p.1 ∈ vis' then 0 else p.2.length) ≤
        (if p.1 ∈ vis then 0 else p.2.length) := by
      by_cases hp : p.1 ∈ vis
      · rw [if_pos hp, if_pos (h _ hp)]
      · rw [if_neg hp]
        split
        · exact Nat.zero_le _
        · exact le_refl _
    omega

theorem adjPot_touch (es : List (V × List (V × Nat))) (k : V) (vis : List V) :
    adjPot (touch es k) vis = adjPot es vis := by
  induction es with
  | nil =>
    rw [touch]
    show (if k ∈ vis then 0 else ([] : List (V × Nat)).length) + adjPot [] vis = adjPot [] vis
    simp
  | cons p rest ih =>
    obtain ⟨k', l⟩ := p
    by_cases hk : k = k'
    · rw [touch, if_pos hk]
    · rw [touch, if_neg hk, adjPot, adjPot, ih]

theorem adjPot_visit (es : List (V × List (V × Nat))) (vis : List V) (u : V)
    (hu : u ∉ vis) :
    adjPot es (vis ++ [u]) + ((alookup es u).getD []).length ≤ adjPot es vis := by
  induction es with
  | nil =>
    rw [adjPot, adjPot]
    show 0 + (Option.getD none []).length ≤ 0
    simp
  | cons p rest ih =>
    obtain ⟨k, l⟩ := p
    rw [adjPot, adjPot]
    by_cases hk : u = k
    · subst hk
      rw [alookup, if_pos rfl]
      have h1 : u ∈ vis ++ [u] := List.mem_append_right _ (List.mem_singleton.mpr rfl)
      rw [if_pos h1, if_neg hu]
      have h2 := adjPot_mono rest vis (vis ++ [u]) (fun x hx => List.mem_append_left _ hx)
      show 0 + adjPot rest (vis ++ [u]) + (Option.getD (some l) []).length ≤
        l.length + adjPot rest vis
      simp only [Option.getD]
      omega
    · rw [alookup, if_neg hk]
      have hmem : k ∈ vis ++ [u] ↔ k ∈ vis := by
        rw [List.mem_append, List.mem_singleton]
        constructor
        · rintro (hh | hh)
          · exact hh
          · exact absurd hh.symm hk
        · exact Or.inl
      have hterm : (if k ∈ vis ++ [u] then 0 else l.length) =
          (if k ∈ vis then 0 else l.length) := by
        by_cases hkv : k ∈ vis
        · rw [if_pos hkv, if_pos (hmem.mpr hkv)]
        · rw [if_neg hkv, if_neg (fun hh => hkv (hmem.mp hh))]
      rw [hterm]
      have := ih
      dsimp only
      omega

theorem alookup_map_const {α : Type} (l : List V) (c : α) (v : V) :
    alookup (l.map (fun x => (x, c))) v = if v ∈ l then some c else none := by
  induction l with
  | nil => simp [alookup]
  | cons a rest ih =>
    rw [List.map_cons, alookup]
    by_cases hv : v = a
    · subst hv
      rw [if_pos rfl, if_pos (List.mem_cons_self _ _)]
    · rw [if_neg hv, ih]
      by_cases hm : v ∈ rest
      · rw [if_pos hm, if_pos (List.mem_cons_of_mem _ hm)]
      · rw [if_neg hm, if_neg (fun hh => by
          rcases List.mem_cons.mp hh with hh | hh
          · exact hv hh
          · exact hm hh)]

/-- The invariant holds when the loop starts. -/
theorem initState_inv {g : Graph V} (s : V) :
    DInv g s ⟨initDist g s, initPrev g, [(0, s)], [], g⟩ := by
  have hs0 : dOf (initDist g s) s = 0 := by
    unfold initDist
    rw [dOf_aset_self]
  have hdother : ∀ v, v ≠ s → dOf (initDist g s) v = ⊤ := by
    intro v hv
    unfold initDist dOf
    rw [alookup_aset_ne _ _ _ _ hv, alookup_map_const]
    by_cases hm : v ∈ g.vertices
    · rw [if_pos hm]
      rfl
    · rw [if_neg hm]
      rfl
  refine ⟨⟨rfl, fun _ => rfl, ?_, ?_, ?_, ?_, ?_, ?_, ?_, ?_, ?_, ?_, List.nodup_nil⟩, ?_⟩
  · intro v
    unfold initDist
    rw [isSome_alookup_aset, alookup_map_const]
    by_cases hm : v ∈ g.vertices
    · simp [hm]
    · simp [hm]
  · intro v
    unfold initPrev
    rw [alookup_map_const]
    by_cases hm : v ∈ g.vertices
    · simp [hm]
    · simp [hm]
  · intro v hne
    by_cases hv : v = s
    · subst hv
      exact ⟨0, by rw [hs0, Nat.cast_zero], Walk.nil⟩
    · exact absurd (hdother v hv) hne
  · intro e he
    rw [List.mem_singleton] at he
    subst he
    exact Walk.nil
  · intro e he
    rw [List.mem_singleton] at he
    subst he
    rw [hs0]
    exact zero_le _
  · intro v hv hne
    by_cases hvs : v = s
    · subst hvs
      exact ⟨0, List.mem_singleton.mpr rfl, by rw [hs0, Nat.cast_zero]⟩
    · exact absurd (hdother v hvs) hne
  · intro x hx
    cases hx
  · exact hs0
  · intro v pv hpv
    unfold initPrev at hpv
    rw [alookup_map_const] at hpv
    by_cases hm : v ∈ g.vertices
    · rw [if_pos hm] at hpv
      cases hpv
    · rw [if_neg hm] at hpv
      cases hpv
  · intro o ho
    unfold initPrev at ho
    rw [alookup_map_const] at ho
    by_cases hm : s ∈ g.vertices
    · rw [if_pos hm] at ho
      cases ho
      rfl
    · rw [if_neg hm] at ho
      cases ho
  · intro x hx
    cases hx

theorem dloop_inv {g : Graph V} {s : V} (hwf : WF g) :
    ∀ (fuel : Nat) (st : DState V), DInv g s st → Phi st ≤ fuel →
      ∃ st', dloop fuel st = some st' ∧ DInv g s st' ∧ st'.pq = [] ∧
        ∀ x ∈ st.visited, x ∈ st'.visited := by
  intro fuel
  induction fuel with
  | zero =>
    intro st hinv hphi
    cases hmin : pqMin st.pq with
    | none =>
      exact ⟨st, dloop_none _ _ hmin, hinv, pqMin_eq_none.mp hmin, fun x hx => hx⟩
    | some e =>
      exfalso
      obtain ⟨hem, _⟩ := pqMin_spec hmin
      have hpos := List.length_pos_of_mem hem
      have hphi' : st.pq.length + adjPot st.graph.edges st.visited ≤ 0 := hphi
      omega
  | succ fuel ih =>
    intro st hinv hphi
    cases hmin : pqMin st.pq with
    | none =>
      exact ⟨st, dloop_none _ _ hmin, hinv, pqMin_eq_none.mp hmin, fun x hx => hx⟩
    | some e =>
      obtain ⟨hem, hele⟩ := pqMin_spec hmin
      have hlenpos : 0 < st.pq.length := List.length_pos_of_mem hem
      have hlen_e : (st.pq.erase e).length = st.pq.length - 1 :=
        List.length_erase_of_mem hem
      have hphi' : st.pq.length + adjPot st.graph.edges st.visited ≤ fuel + 1 := hphi
      by_cases hv : e.2 ∈ st.visited
      · -- stale entry: skipped
        have hinv1 : DInv g s { st with pq := st.pq.erase e } := by
          obtain ⟨hpre, hcl⟩ := hinv
          refine ⟨⟨hpre.hver, hpre.hnb, hpre.hdk, hpre.hpk, hpre.hub, ?_, ?_, ?_, ?_,
            hpre.hs0, hpre.hpd, hpre.hps, hpre.hnd⟩, hcl⟩
          · intro e' he'
            exact hpre.hpqw e' (List.erase_subset _ _ he')
          · intro e' he'
            exact hpre.hpqlb e' (List.erase_subset _ _ he')
          · intro v hvv hne
            obtain ⟨c, hc, hceq⟩ := hpre.hcomp v hvv hne
            refine ⟨c, ?_, hceq⟩
            have hcv : (c, v) ≠ e := fun hh => hvv (by rw [← hh] at hv; exact hv)
            exact (List.mem_erase_of_ne hcv).mpr hc
          · intro x hx e' he'
            exact hpre.hcut x hx e' (List.erase_subset _ _ he')
        have hphi1 : Phi { st with pq := st.pq.erase e } ≤ fuel := by
          show (st.pq.erase e).length + adjPot st.graph.edges st.visited ≤ fuel
          omega
        obtain ⟨st', hrun, hinv', hpq', hsub'⟩ := ih _ hinv1 hphi1
        exact ⟨st', by rw [dloop_skip fuel st e hmin hv]; exact hrun, hinv', hpq', hsub'⟩
      · -- new vertex: the popped priority equals its current distance
        obtain ⟨hpre, hclosure⟩ := hinv
        have hwalk_e : Walk g s e.2 e.1 := hpre.hpqw e hem
        have hlb := hpre.hpqlb e hem
        have hne_top : dOf st.dist e.2 ≠ ⊤ := by
          intro hh
          rw [hh] at hlb
          exact ENat.coe_ne_top e.1 (top_le_iff.mp hlb)
        obtain ⟨c, hcm, hceq⟩ := hpre.hcomp e.2 hv hne_top
        have hle_c : e.1 ≤ c := by
          rcases hele _ hcm with hh | ⟨hh, _⟩
          · exact le_of_lt hh
          · exact le_of_eq hh
        have hdeq : dOf st.dist e.2 = (e.1 : ℕ∞) := by
          refine le_antisymm hlb ?_
          rw [← hceq]
          exact Nat.cast_le.mpr hle_c
        have hnd2 : (st.visited ++ [e.2]).Nodup := by
          rw [List.nodup_append]
          exact ⟨hpre.hnd, List.nodup_singleton _,
            fun a ha hb => hv ((List.mem_singleton.mp hb) ▸ ha)⟩
        have hpre2 : Pre g s (visitState st e) := by
          refine ⟨?_, ?_, hpre.hdk, hpre.hpk, hpre.hub, ?_, ?_, ?_, ?_,
            hpre.hs0, hpre.hpd, hpre.hps, hnd2⟩
          · show (st.graph.get_neighbors e.2).2.vertices = g.vertices
            rw [vertices_get_neighbors]
            exact hpre.hver
          · intro x
            show neighborsList (st.graph.get_neighbors e.2).2 x = neighborsList g x
            rw [neighborsList_get_neighbors]
            exact hpre.hnb x
          · intro e' he'
            exact hpre.hpqw e' (List.erase_subset _ _ he')
          · intro e' he'
            exact hpre.hpqlb e' (List.erase_subset _ _ he')
          · intro v hvv hne
            have hv1 : v ∉ st.visited := fun hh => hvv (List.mem_append_left _ hh)
            have hv2 : v ≠ e.2 :=
              fun hh => hvv (List.mem_append_right _ (List.mem_singleton.mpr hh))
            obtain ⟨c', hc', hceq'⟩ := hpre.hcomp v hv1 hne
            refine ⟨c', ?_, hceq'⟩
            have hne' : (c', v) ≠ e := fun hh => hv2 (congrArg Prod.snd hh)
            exact (List.mem_erase_of_ne hne').mpr hc'
          · intro x hx e' he'
            have he'pq : e' ∈ st.pq := List.erase_subset _ _ he'
            rcases List.mem_append.mp hx with hx | hx
            · exact hpre.hcut x hx e' he'pq
            · rw [List.mem_singleton] at hx
              subst hx
              show dOf st.dist e.2 ≤ _
              rw [hdeq]
              rcases hele _ he'pq with hh | ⟨hh, _⟩
              · exact Nat.cast_le.mpr (le_of_lt hh)
              · exact Nat.cast_le.mpr (le_of_eq hh)
        have hrem_eq : (st.graph.get_neighbors e.2).1 = neighborsList g e.2 := by
          rw [fst_get_neighbors]
          exact hpre.hnb e.2
        have hcl2 : Closed g (visitState st e) e.2 ((st.graph.get_neighbors e.2).1) := by
          rw [hrem_eq]
          intro x hx e' he' hg
          rcases List.mem_append.mp hx with hx | hx
          · exact hclosure x hx e' he'
          · rw [List.mem_singleton] at hx
            subst hx
            exact absurd he' (hg rfl)
        have hsub2 : ∀ e' ∈ (st.graph.get_neighbors e.2).1, e' ∈ neighborsList g e.2 :=
          fun e' he' => hrem_eq ▸ he'
        have hu2 : e.2 ∈ (visitState st e).visited :=
          List.mem_append_right _ (List.mem_singleton.mpr rfl)
        have hdu2 : dOf (visitState st e).dist e.2 = (e.1 : ℕ∞) := hdeq
        have hvb2 : ∀ x ∈ (visitState st e).visited,
            dOf (visitState st e).dist x ≤ (e.1 : ℕ∞) := by
          intro x hx
          rcases List.mem_append.mp hx with hx | hx
          · exact hpre.hcut x hx e hem
          · rw [List.mem_singleton] at hx
            subst hx
            exact le_of_eq hdeq
        obtain ⟨st3, hrun3, hpre3, hcl3, hvis3, hg3, hlen3⟩ :=
          relaxAll_inv hwf hwalk_e (st.graph.get_neighbors e.2).1 (visitState st e)
            hpre2 hcl2 hsub2 hu2 hdu2 hvb2
        have hinv3 : DInv g s st3 := DInv_of_closed hpre3 hcl3
        have hphi3 : Phi st3 ≤ fuel := by
          have hA := adjPot_visit st.graph.edges st.visited e.2 hv
          have hB : st3.pq.length ≤
              (st.pq.erase e).length + ((alookup st.graph.edges e.2).getD []).length :=
            hlen3
          have hC : adjPot st3.graph.edges st3.visited =
              adjPot st.graph.edges (st.visited ++ [e.2]) := by
            rw [hg3, hvis3]
            show adjPot (touch st.graph.edges e.2) (st.visited ++ [e.2]) = _
            exact adjPot_touch _ _ _
          show st3.pq.length + adjPot st3.graph.edges st3.visited ≤ fuel
          rw [hC]
          omega
        obtain ⟨st', hrun', hinv', hpq', hsub'⟩ := ih st3 hinv3 hphi3
        refine ⟨st', ?_, hinv', hpq', ?_⟩
        · rw [dloop_visit fuel st e hmin hv, hrun3]
          exact hrun'
        · intro x hx
          refine hsub' x ?_
          rw [hvis3]
          exact List.mem_append_left _ hx

/-- At the end of the run every finite distance is a visited vertex. -/
theorem final_visited {g : Graph V} {s : V} {st : DState V}
    (hinv : DInv g s st) (hpq : st.pq = []) {v : V}
    (hne : dOf st.dist v ≠ ⊤) : v ∈ st.visited := by
  by_contra hvv
  obtain ⟨c, hc, _⟩ := hinv.1.hcomp v hvv hne
  rw [hpq] at hc
  cases hc

/-- At the end of the run the recorded distance is a lower bound realised
along every walk. -/
theorem final_le_walk {g : Graph V} {s : V} {st : DState V}
    (hinv : DInv g s st) (hpq : st.pq = []) :
    ∀ (v : V) (n : Nat), Walk g s v n → dOf st.dist v ≤ (n : ℕ∞) := by
  intro v n hw
  induction hw with
  | nil =>
    rw [hinv.1.hs0, Nat.cast_zero]
  | snoc hw' he ih =>
    rename_i v' x c w
    have hne : dOf st.dist v' ≠ ⊤ := by
      intro hh
      rw [hh] at ih
      exact ENat.coe_ne_top c (top_le_iff.mp ih)
    have hvis : v' ∈ st.visited := final_visited hinv hpq hne
    have hcl := hinv.2 v' hvis (x, w) he
    refine le_trans hcl ?_
    rw [Nat.cast_add]
    exact add_le_add_right ih _

/-- The final distance of any vertex is the minimum walk weight. -/
theorem final_shortest {g : Graph V} {s : V} {st : DState V}
    (hinv : DInv g s st) (hpq : st.pq = []) (v : V) :
    IsShortestDistance g s v (dOf st.dist v) := by
  refine ⟨fun n hw => final_le_walk hinv hpq v n hw, ?_, ?_⟩
  · intro hh n hw
    have := final_le_walk hinv hpq v n hw
    rw [hh] at this
    exact ENat.coe_ne_top n (top_le_iff.mp this)
  · intro hne
    exact hinv.1.hub v hne

/-- Master theorem: on well-formed graphs `dijkstra` always returns a
state that satisfies the invariant and has drained its queue. -/
theorem dijkstra_master {g : Graph V} (s : V) (hwf : WF g) :
    ∃ st', dijkstra g s = some st' ∧ DInv g s st' ∧ st'.pq = [] := by
  have hinit : DInv g s ⟨initDist g s, initPrev g, [(0, s)], [], g⟩ :=
    initState_inv s
  have hphi : Phi (⟨initDist g s, initPrev g, [(0, s)], [], g⟩ : DState V) ≤
      totalAdj g + 2 := by
    show [(0, s)].length + adjPot g.edges [] ≤ totalAdj g + 2
    have := adjPot_le g.edges []
    have htot : (g.edges.map (fun p => p.2.length)).sum = totalAdj g := rfl
    simp only [List.length_cons, List.length_nil]
    omega
  obtain ⟨st', hrun, hinv', hpq', _⟩ :=
    dloop_inv hwf (totalAdj g + 2) _ hinit hphi
  exact ⟨st', hrun, hinv', hpq'⟩

theorem reconstruct_self {prev : List (V × Option V)} {s : V}
    (h : alookup prev s = some none) :
    reconstruct_path prev s s = some (some [s]) := by
  unfold reconstruct_path
  rw [walkPrev, h]
  show (if ([s].reverse.head? = some s) then some (some [s].reverse) else some none) =
    some (some [s])
  rw [List.reverse_singleton]
  have hc : [s].head? = some s := rfl
  rw [if_pos hc]

theorem reconstruct_no_path {prev : List (V × Option V)} {s v : V}
    (h : alookup prev v = some none) (hne : v ≠ s) :
    reconstruct_path prev s v = some none := by
  unfold reconstruct_path
  rw [walkPrev, h]
  show (if ([v].reverse.head? = some s) then some (some [v].reverse) else some none) =
    some none
  rw [List.reverse_singleton]
  have hc : ¬ ([v].head? = some s) := fun hh => hne (Option.some.inj hh)
  rw [if_neg hc]

theorem final_prev_none {g : Graph V} {s : V} {st : DState V}
    (hinv : DInv g s st) {v : V} (hv : v ∈ g.vertices)
    (htop : dOf st.dist v = ⊤) : alookup st.prev v = some none := by
  obtain ⟨o, ho⟩ := Option.isSome_iff_exists.mp ((hinv.1.hpk v).mpr hv)
  cases o with
  | none => exact ho
  | some pv => exact absurd htop (hinv.1.hpd v pv ho)

theorem final_prev_start {g : Graph V} {s : V} {st : DState V}
    (hinv : DInv g s st) (hs : s ∈ g.vertices) :
    alookup st.prev s = some none := by
  obtain ⟨o, ho⟩ := Option.isSome_iff_exists.mp ((hinv.1.hpk s).mpr hs)
  have := hinv.1.hps o ho
  subst this
  exact ho

theorem alookup_dist_eq {g : Graph V} {s : V} {st : DState V}
    (hinv : DInv g s st) {v : V} (hv : v ∈ g.vertices ∨ v = s) :
    alookup st.dist v = some (dOf st.dist v) := by
  obtain ⟨d, hd⟩ := Option.isSome_iff_exists.mp ((hinv.1.hdk v).mpr hv)
  rw [hd, dOf_eq_of_alookup hd]

theorem addToSet_sub {l : List V} {x : V} (v : V) (hx : x ∈ l) :
    x ∈ addToSet l v := by
  unfold addToSet
  split
  · exact hx
  · exact List.mem_append_left _ hx

theorem addToSet_self (l : List V) (v : V) : v ∈ addToSet l v := by
  unfold addToSet
  split
  · assumption
  · exact List.mem_append_right _ (List.mem_singleton.mpr rfl)

theorem appendAdj_prop {es : List (V × List (V × Nat))} {k : V} {e : V × Nat}
    (P : V → Prop) (hes : ∀ p ∈ es, P p.1 ∧ ∀ x ∈ p.2, P x.1)
    (hk : P k) (he : P e.1) :
    ∀ p ∈ appendAdj es k e, P p.1 ∧ ∀ x ∈ p.2, P x.1 := by
  induction es with
  | nil =>
    intro p hp
    rw [appendAdj, List.mem_singleton] at hp
    subst hp
    refine ⟨hk, ?_⟩
    intro x hx
    rw [List.mem_singleton] at hx
    subst hx
    exact he
  | cons q rest ih =>
    obtain ⟨k', l⟩ := q
    intro p hp
    rw [appendAdj] at hp
    by_cases hkk : k = k'
    · rw [if_pos hkk] at hp
      rcases List.mem_cons.mp hp with hp | hp
      · subst hp
        obtain ⟨h1, h2⟩ := hes (k', l) (List.mem_cons_self _ _)
        refine ⟨h1, ?_⟩
        intro x hx
        rcases List.mem_append.mp hx with hx | hx
        · exact h2 x hx
        · rw [List.mem_singleton] at hx
          subst hx
          exact he
      · exact hes p (List.mem_cons_of_mem _ hp)
    · rw [if_neg hkk] at hp
      rcases List.mem_cons.mp hp with hp | hp
      · subst hp
        exact hes (k', l) (List.mem_cons_self _ _)
      · exact ih (fun q hq => hes q (List.mem_cons_of_mem _ hq)) p hp

omit [LinearOrder V] in
theorem WF_empty : WF (Graph.empty : Graph V) := by
  intro p hp
  cases hp

theorem WF_add_vertex {g : Graph V} (hwf : WF g) (v : V) :
    WF (g.add_vertex v) := by
  intro p hp
  obtain ⟨h1, h2⟩ := hwf p hp
  exact ⟨addToSet_sub v h1, fun x hx => addToSet_sub v (h2 x hx)⟩

theorem WF_add_edge {g : Graph V} (hwf : WF g) (u v : V) (w : Nat) :
    WF (g.add_edge u v w) := by
  intro p hp
  have hbase : ∀ q ∈ g.edges, q.1 ∈ (g.add_edge u v w).vertices ∧
      ∀ x ∈ q.2, x.1 ∈ (g.add_edge u v w).vertices := by
    intro q hq
    obtain ⟨h1, h2⟩ := hwf q hq
    exact ⟨addToSet_sub _ (addToSet_sub _ h1),
      fun x hx => addToSet_sub _ (addToSet_sub _ (h2 x hx))⟩
  have hu : u ∈ (g.add_edge u v w).vertices := addToSet_sub _ (addToSet_self _ _)
  have hv : v ∈ (g.add_edge u v w).vertices := addToSet_self _ _
  have hstep1 : ∀ q ∈ appendAdj g.edges u (v, w),
      q.1 ∈ (g.add_edge u v w).vertices ∧
      ∀ x ∈ q.2, x.1 ∈ (g.add_edge u v w).vertices :=
    appendAdj_prop _ hbase hu hv
  exact appendAdj_prop _ hstep1 hv hu p hp

theorem neighborsList_appendAdj_sub {es : List (V × List (V × Nat))}
    {x : V} {e' : V × Nat} (k : V) (e : V × Nat)
    (h : e' ∈ (alookup es x).getD []) :
    e' ∈ (alookup (appendAdj es k e) x).getD [] := by
  induction es with
  | nil =>
    rw [alookup] at h
    cases h
  | cons q rest ih =>
    obtain ⟨k', l⟩ := q
    rw [alookup] at h
    rw [appendAdj]
    by_cases hkk : k = k'
    · rw [if_pos hkk, alookup]
      by_cases hx : x = k'
      · rw [if_pos hx] at h ⊢
        exact List.mem_append_left _ h
      · rw [if_neg hx] at h ⊢
        exact h
    · rw [if_neg hkk, alookup]
      by_cases hx : x = k'
      · rw [if_pos hx] at h ⊢
        exact h
      · rw [if_neg hx] at h ⊢
        exact ih h

theorem neighborsList_appendAdj_self (es : List (V × List (V × Nat)))
    (k : V) (e : V × Nat) :
    e ∈ (alookup (appendAdj es k e) k).getD [] := by
  induction es with
  | nil =>
    rw [appendAdj, alookup, if_pos rfl]
    exact List.mem_singleton.mpr rfl
  | cons q rest ih =>
    obtain ⟨k', l⟩ := q
    rw [appendAdj]
    by_cases hkk : k = k'
    · rw [if_pos hkk, alookup, if_pos hkk]
      exact List.mem_append_right _ (List.mem_singleton.mpr rfl)
    · rw [if_neg hkk, alookup, if_neg hkk]
      exact ih

/-- A graph-building operation: the public mutators of the `Graph` class. -/
inductive GOp (V : Type) where
  | addV (v : V)
  | addE (u v : V) (w : Nat)

/-- Apply one building operation. -/
def applyOp (g : Graph V) : GOp V → Graph V
  | GOp.addV v => g.add_vertex v
  | GOp.addE u v w => g.add_edge u v w

theorem applyOp_vertices_mono {g : Graph V} {x : V} (op : GOp V)
    (hx : x ∈ g.vertices) : x ∈ (applyOp g op).vertices := by
  cases op with
  | addV v => exact addToSet_sub v hx
  | addE u v w => exact addToSet_sub _ (addToSet_sub _ hx)

theorem applyOp_neighbors_mono {g : Graph V} {y : V} {e' : V × Nat} (op : GOp V)
    (he : e' ∈ neighborsList g y) : e' ∈ neighborsList (applyOp g op) y := by
  cases op with
  | addV v => exact he
  | addE u v w =>
    exact neighborsList_appendAdj_sub _ _ (neighborsList_appendAdj_sub _ _ he)

theorem foldl_vertices_mono {x : V} :
    ∀ (ops : List (GOp V)) (g : Graph V), x ∈ g.vertices →
      x ∈ (ops.foldl applyOp g).vertices := by
  intro ops
  induction ops with
  | nil => exact fun g hx => hx
  | cons op rest ih =>
    intro g hx
    exact ih _ (applyOp_vertices_mono op hx)

theorem foldl_neighbors_mono {y : V} {e' : V × Nat} :
    ∀ (ops : List (GOp V)) (g : Graph V), e' ∈ neighborsList g y →
      e' ∈ neighborsList (ops.foldl applyOp g) y := by
  intro ops
  induction ops with
  | nil => exact fun g hx => hx
  | cons op rest ih =>
    intro g hx
    exact ih _ (applyOp_neighbors_mono op hx)

/-- Total weight of a vertex sequence read along the graph's adjacency
lists (first matching entry); used to state the concrete-path claims. -/
def listWeight (g : Graph V) : List V → Option Nat
  | [] => some 0
  | [_] => some 0
  | a :: b :: rest =>
      match (neighborsList g a).find? (fun e => e.1 == b) with
      | none => none
      | some e =>
          match listWeight g (b :: rest) with
          | none => none
          | some c => some (e.2 + c)

/-- C1: for every well-formed graph (non-negative weights are inherent to
the `Nat` weight type) and source vertex in the vertex set, `dijkstra`
returns a distance map in which every vertex maps to the minimum total
edge weight over all paths from the source, the source maps to `0`, and
every unreachable vertex maps to `⊤` (the embedding of `float('inf')`). -/
theorem C1_dijkstra_shortest_distances (g : Graph V) (s : V)
    (hwf : WF g) (hs : s ∈ g.vertices) :
    ∃ st', dijkstra g s = some st' ∧
      (∀ v ∈ g.vertices, alookup st'.dist v = some (dOf st'.dist v) ∧
        IsShortestDistance g s v (dOf st'.dist v)) ∧
      alookup st'.dist s = some 0 ∧
      (∀ v ∈ g.vertices, (∀ n : Nat, ¬ Walk g s v n) →
        alookup st'.dist v = some ⊤) := by
  obtain ⟨st', hrun, hinv, hpq⟩ := dijkstra_master s hwf
  refine ⟨st', hrun, ?_, ?_, ?_⟩
  · intro v hv
    exact ⟨alookup_dist_eq hinv (Or.inl hv), final_shortest hinv hpq v⟩
  · rw [alookup_dist_eq hinv (Or.inl hs), hinv.1.hs0]
  · intro v hv hunreach
    have htop : dOf st'.dist v = ⊤ := by
      by_contra hne
      obtain ⟨n, _, hw⟩ := hinv.1.hub v hne
      exact hunreach n hw
    rw [alookup_dist_eq hinv (Or.inl hv), htop]

theorem C1_witness :
    ∃ st', dijkstra create_sample_graph 'A' = some st' ∧
      (∀ v ∈ create_sample_graph.vertices,
        alookup st'.dist v = some (dOf st'.dist v) ∧
        IsShortestDistance create_sample_graph 'A' v (dOf st'.dist v)) ∧
      alookup st'.dist 'A' = some 0 ∧
      (∀ v ∈ create_sample_graph.vertices,
        (∀ n : Nat, ¬ Walk create_sample_graph 'A' v n) →
        alookup st'.dist v = some ⊤) :=
  C1_dijkstra_shortest_distances create_sample_graph 'A' (by decide) (by decide)

/-- C2 counterexample: the claimed distance `7` for vertex `D` is wrong;
the run on the sample graph assigns `D` the distance `8` (which is indeed
the shortest: A→C→B→D has weight 2+1+5). -/
theorem C2_counterexample :
    (dijkstra create_sample_graph 'A').map (fun st => alookup st.dist 'D') =
      some (some (8 : ℕ∞)) ∧
    ¬ ((dijkstra create_sample_graph 'A').map (fun st => alookup st.dist 'D') =
      some (some (7 : ℕ∞))) := by
  constructor
  · decide
  · decide

/-- C2 (amended): on the sample graph with source `A`, `dijkstra` returns
distances A=0, B=3, C=2, D=8, E=10, F=13, and `reconstruct_path` from `A`
to `F` returns [A, C, B, D, E, F], whose total edge weight is 13. -/
theorem C2_amended :
    (dijkstra create_sample_graph 'A').map (fun st =>
      (alookup st.dist 'A', alookup st.dist 'B', alookup st.dist 'C',
       alookup st.dist 'D', alookup st.dist 'E', alookup st.dist 'F',
       reconstruct_path st.prev 'A' 'F')) =
      some (some 0, some 3, some 2, some 8, some 10, some 13,
        some (some ['A', 'C', 'B', 'D', 'E', 'F'])) ∧
    listWeight create_sample_graph ['A', 'C', 'B', 'D', 'E', 'F'] = some 13 := by
  constructor
  · rfl
  · rfl

/-- C3: once a vertex is in the visited set, the rest of the run never
changes its distance entry and never adds it to the visited set again
(its multiplicity in the visited list is preserved).  This holds from any
intermediate state of any run, structurally, with no well-formedness
assumptions. -/
theorem C3_visited_frozen (fuel : Nat) (st st' : DState V) (v : V)
    (hv : v ∈ st.visited) (hrun : dloop fuel st = some st') :
    alookup st'.dist v = alookup st.dist v ∧
    st'.visited.count v = st.visited.count v :=
  (dloop_frozen fuel hrun).1 v hv

theorem C3_witness :
    alookup (DState.dist (V := Char)
        ⟨[('A', (0 : ℕ∞))], [('A', none)], [], ['A'], Graph.empty⟩) 'A' =
      alookup (DState.dist (V := Char)
        ⟨[('A', (0 : ℕ∞))], [('A', none)], [], ['A'], Graph.empty⟩) 'A' ∧
    (DState.visited (V := Char)
        ⟨[('A', (0 : ℕ∞))], [('A', none)], [], ['A'], Graph.empty⟩).count 'A' =
      (DState.visited (V := Char)
        ⟨[('A', (0 : ℕ∞))], [('A', none)], [], ['A'], Graph.empty⟩).count 'A' :=
  C3_visited_frozen 0 ⟨[('A', (0 : ℕ∞))], [('A', none)], [], ['A'], Graph.empty⟩
    ⟨[('A', (0 : ℕ∞))], [('A', none)], [], ['A'], Graph.empty⟩ 'A'
    (by decide) rfl

/-- C4: after `add_edge u v w` both endpoints are in the vertex set,
`(v, w)` is in `u`'s neighbor list and `(u, w)` in `v`'s, and every
subsequent sequence of `add_vertex` / `add_edge` operations preserves all
four facts. -/
theorem C4_add_edge_symmetric (g : Graph V) (ops : List (GOp V)) (u v : V)
    (w : Nat) :
    u ∈ (ops.foldl applyOp (g.add_edge u v w)).vertices ∧
    v ∈ (ops.foldl applyOp (g.add_edge u v w)).vertices ∧
    (v, w) ∈ neighborsList (ops.foldl applyOp (g.add_edge u v w)) u ∧
    (u, w) ∈ neighborsList (ops.foldl applyOp (g.add_edge u v w)) v := by
  have h1 : u ∈ (g.add_edge u v w).vertices := addToSet_sub _ (addToSet_self _ _)
  have h2 : v ∈ (g.add_edge u v w).vertices := addToSet_self _ _
  have h3 : (v, w) ∈ neighborsList (g.add_edge u v w) u := by
    show (v, w) ∈ (alookup (appendAdj (appendAdj g.edges u (v, w)) v (u, w)) u).getD []
    exact neighborsList_appendAdj_sub _ _ (neighborsList_appendAdj_self _ _ _)
  have h4 : (u, w) ∈ neighborsList (g.add_edge u v w) v := by
    show (u, w) ∈ (alookup (appendAdj (appendAdj g.edges u (v, w)) v (u, w)) v).getD []
    exact neighborsList_appendAdj_self _ _ _
  exact ⟨foldl_vertices_mono ops _ h1, foldl_vertices_mono ops _ h2,
    foldl_neighbors_mono ops _ h3, foldl_neighbors_mono ops _ h4⟩

/-- C5: on a well-formed graph with the source in the vertex set, every
vertex unreachable from the source ends the run with distance `⊤` and
predecessor `none`, and `reconstruct_path` to it returns the "no path"
signal (Python's `None`, embedded as `some none`: outer `some` means no
exception was raised), not a partial path. -/
theorem C5_unreachable (g : Graph V) (s v : V) (hwf : WF g)
    (hs : s ∈ g.vertices) (hv : v ∈ g.vertices)
    (hunreach : ∀ n : Nat, ¬ Walk g s v n) :
    ∃ st', dijkstra g s = some st' ∧
      alookup st'.dist v = some ⊤ ∧
      alookup st'.prev v = some none ∧
      reconstruct_path st'.prev s v = some none := by
  obtain ⟨st', hrun, hinv, hpq⟩ := dijkstra_master s hwf
  have htop : dOf st'.dist v = ⊤ := by
    by_contra hne
    obtain ⟨n, _, hw⟩ := hinv.1.hub v hne
    exact hunreach n hw
  have hprev := final_prev_none hinv hv htop
  have hvs : v ≠ s := by
    intro hh
    subst hh
    exact hunreach 0 Walk.nil
  exact ⟨st', hrun, by rw [alookup_dist_eq hinv (Or.inl hv), htop],
    hprev, reconstruct_no_path hprev hvs⟩

/-- The witness graph for C5: an edge A–B plus an isolated vertex C. -/
def sampleIsolated : Graph Char :=
  (Graph.add_edge Graph.empty 'A' 'B' 1).add_vertex 'C'

theorem walk_sampleIsolated {x : Char} {n : Nat}
    (hw : Walk sampleIsolated 'A' x n) : x = 'A' ∨ x = 'B' := by
  induction hw with
  | nil => exact Or.inl rfl
  | snoc hw' he ih =>
    rcases ih with hh | hh
    · rw [hh] at he
      have hnb : neighborsList sampleIsolated 'A' = [('B', 1)] := rfl
      rw [hnb, List.mem_singleton] at he
      exact Or.inr (congrArg Prod.fst he)
    · rw [hh] at he
      have hnb : neighborsList sampleIsolated 'B' = [('A', 1)] := rfl
      rw [hnb, List.mem_singleton] at he
      exact Or.inl (congrArg Prod.fst he)

theorem C5_witness :
    ∃ st', dijkstra sampleIsolated 'A' = some st' ∧
      alookup st'.dist 'C' = some ⊤ ∧
      alookup st'.prev 'C' = some none ∧
      reconstruct_path st'.prev 'A' 'C' = some none :=
  C5_unreachable sampleIsolated 'A' 'C' (by decide) (by decide) (by decide)
    (fun n hw => by
      rcases walk_sampleIsolated hw with hh | hh
      · exact absurd hh (by decide)
      · exact absurd hh (by decide))

/-- C6: for the predecessor map produced by `dijkstra` on a well-formed
graph with the source in the vertex set,
`reconstruct_path prev source source` is the one-element path `[source]`. -/
theorem C6_reconstruct_source (g : Graph V) (s : V) (hwf : WF g)
    (hs : s ∈ g.vertices) :
    ∃ st', dijkstra g s = some st' ∧
      reconstruct_path st'.prev s s = some (some [s]) := by
  obtain ⟨st', hrun, hinv, _⟩ := dijkstra_master s hwf
  exact ⟨st', hrun, reconstruct_self (final_prev_start hinv hs)⟩

theorem C6_witness :
    ∃ st', dijkstra create_sample_graph 'A' = some st' ∧
      reconstruct_path st'.prev 'A' 'A' = some (some ['A']) :=
  C6_reconstruct_source create_sample_graph 'A' (by decide) (by decide)

/-- C7: on a well-formed graph with the source in the vertex set the main
loop terminates within the supplied fuel (so `dijkstra` returns a value)
with an empty queue, and every vertex reachable from the source occurs
exactly once in the visited list. -/
theorem C7_terminates (g : Graph V) (s : V) (hwf : WF g)
    (_hs : s ∈ g.vertices) :
    ∃ st', dijkstra g s = some st' ∧ st'.pq = [] ∧ st'.visited.Nodup ∧
      ∀ v : V, (∃ n : Nat, Walk g s v n) → v ∈ st'.visited := by
  obtain ⟨st', hrun, hinv, hpq⟩ := dijkstra_master s hwf
  refine ⟨st', hrun, hpq, hinv.1.hnd, ?_⟩
  intro v hv
  obtain ⟨n, hw⟩ := hv
  have hle := final_le_walk hinv hpq v n hw
  have hne : dOf st'.dist v ≠ ⊤ := by
    intro hh
    rw [hh] at hle
    exact ENat.coe_ne_top n (top_le_iff.mp hle)
  exact final_visited hinv hpq hne

theorem C7_witness :
    ∃ st', dijkstra create_sample_graph 'A' = some st' ∧ st'.pq = [] ∧
      st'.visited.Nodup ∧
      ∀ v : Char, (∃ n : Nat, Walk create_sample_graph 'A' v n) →
        v ∈ st'.visited :=
  C7_terminates create_sample_graph 'A' (by decide) (by decide)

/-- C8: `dijkstra` is deterministic — two runs on the same graph and
source produce the same distance and predecessor maps. -/
theorem C8_deterministic (g : Graph V) (s : V) (st1 st2 : DState V)
    (h1 : dijkstra g s = some st1) (h2 : dijkstra g s = some st2) :
    st1.dist = st2.dist ∧ st1.prev = st2.prev := by
  rw [h1] at h2
  cases h2
  exact ⟨rfl, rfl⟩

theorem C8_witness :
    (Option.get (dijkstra create_sample_graph 'A') rfl).dist =
      (Option.get (dijkstra create_sample_graph 'A') rfl).dist ∧
    (Option.get (dijkstra create_sample_graph 'A') rfl).prev =
      (Option.get (dijkstra create_sample_graph 'A') rfl).prev :=
  C8_deterministic create_sample_graph 'A' _ _
    (@Option.some_get (DState Char) (dijkstra create_sample_graph 'A') rfl).symm
    (@Option.some_get (DState Char) (dijkstra create_sample_graph 'A') rfl).symm

/-- C9 counterexample: calling `dijkstra` on a graph whose source has no
edges adds the key to the `defaultdict` adjacency mapping (with an empty
list), so the key set of `graph.edges` after the call differs from the
key set before the call: the claim that the mapping's key set is exactly
what it was before is false. -/
theorem C9_counterexample :
    (dijkstra (Graph.add_vertex (Graph.empty : Graph Char) 'A') 'A').map
      (fun st => st.graph.edges.map (fun p => p.1)) = some ['A'] ∧
    (Graph.add_vertex (Graph.empty : Graph Char) 'A').edges.map
      (fun p => p.1) = [] := by
  constructor
  · rfl
  · rfl

/-- C9 (amended): a `dijkstra` call leaves the vertex set unchanged and
leaves the adjacency *content* unchanged — every vertex's neighbor list,
with a missing key read as the empty list, is exactly what it was — but
the `defaultdict` may materialise new keys bound to empty lists for
vertices whose adjacency was read. -/
theorem C9_graph_content_preserved (g : Graph V) (s : V) (st' : DState V)
    (hrun : dijkstra g s = some st') :
    st'.graph.vertices = g.vertices ∧
    ∀ x, neighborsList st'.graph x = neighborsList g x := by
  obtain ⟨_, hgv, hgn⟩ := dloop_frozen _ hrun
  exact ⟨hgv, hgn⟩

theorem C9_witness :
    (Option.get (dijkstra create_sample_graph 'A') rfl).graph.vertices =
      create_sample_graph.vertices ∧
    ∀ x, neighborsList (Option.get (dijkstra create_sample_graph 'A') rfl).graph x =
      neighborsList create_sample_graph x :=
  C9_graph_content_preserved create_sample_graph 'A' _
    (@Option.some_get (DState Char) (dijkstra create_sample_graph 'A') rfl).symm

/-- C10: when the source is not in the vertex set (on a well-formed
graph), `dijkstra` still returns normally: every graph vertex keeps
distance `⊤` and predecessor `none`, the distance map holds an extra
binding `source ↦ 0`, and the predecessor map has no binding for the
source. -/
theorem C10_absent_source (g : Graph V) (s : V) (hwf : WF g)
    (hs : s ∉ g.vertices) :
    ∃ st', dijkstra g s = some st' ∧
      (∀ v ∈ g.vertices, alookup st'.dist v = some ⊤) ∧
      alookup st'.dist s = some 0 ∧
      (∀ v ∈ g.vertices, alookup st'.prev v = some none) ∧
      alookup st'.prev s = none := by
  obtain ⟨st', hrun, hinv, hpq⟩ := dijkstra_master s hwf
  have hnb_s : neighborsList g s = [] := by
    cases hl : alookup g.edges s with
    | none =>
      unfold neighborsList
      rw [hl]
      rfl
    | some l => exact absurd ((hwf (s, l) (alookup_mem hl)).1) hs
  have hwalk_s : ∀ v n, Walk g s v n → v = s := by
    intro v n hw
    induction hw with
    | nil => rfl
    | snoc hw' he ih =>
      rw [ih, hnb_s] at he
      cases he
  have htopAll : ∀ v ∈ g.vertices, dOf st'.dist v = ⊤ := by
    intro v hv
    have hvs : v ≠ s := fun hh => hs (hh ▸ hv)
    by_contra hne
    obtain ⟨n, _, hw⟩ := hinv.1.hub v hne
    exact hvs (hwalk_s v n hw)
  refine ⟨st', hrun, ?_, ?_, ?_, ?_⟩
  · intro v hv
    rw [alookup_dist_eq hinv (Or.inl hv), htopAll v hv]
  · rw [alookup_dist_eq hinv (Or.inr rfl), hinv.1.hs0]
  · intro v hv
    exact final_prev_none hinv hv (htopAll v hv)
  · cases hcase : alookup st'.prev s with
    | none => rfl
    | some o =>
      exfalso
      refine hs ((hinv.1.hpk s).mp ?_)
      rw [hcase]
      rfl

theorem C10_witness :
    ∃ st', dijkstra create_sample_graph 'Z' = some st' ∧
      (∀ v ∈ create_sample_graph.vertices, alookup st'.dist v = some ⊤) ∧
      alookup st'.dist 'Z' = some 0 ∧
      (∀ v ∈ create_sample_graph.vertices, alookup st'.prev v = some none) ∧
      alookup st'.prev 'Z' = none :=
  C10_absent_source create_sample_graph 'Z' (by decide) (by decide)
